import Mathlib

/-!
Verification development for the GoTest event-stream parser/aggregator
(`boot.py`) and its process-execution wrapper (`plugin/exec.py`).

Python strings are modelled as `List Char` (named `Str`), ASCII-oriented:
the regex character classes `\s` and `\d` are modelled over their ASCII
members, which covers every string the program manipulates.
-/

abbrev Str := List Char

/-- Length of the leading run of characters satisfying `p`. -/
def leadingRun (p : Char → Bool) (s : Str) : Nat := (s.takeWhile p).length

/-- The slice of `s` of length `n` starting at index `i`. -/
def sliceLen (s : Str) (i n : Nat) : Str := (s.drop i).take n

/-- Whether `pre` occurs in `s` starting at index `i`. -/
def hasPrefixAt (s pre : Str) (i : Nat) : Bool := List.isPrefixOf pre (s.drop i)

/-- ASCII decimal digit, modelling the regex class `\d`. -/
def isDigit (c : Char) : Bool := '0' ≤ c && c ≤ '9'

/-- ASCII whitespace, modelling the regex class `\s`
(space, tab, newline, carriage return, vertical tab, form feed). -/
def isPySpace (c : Char) : Bool :=
  c = ' ' || c = '\t' || c = '\n' || c = '\r' || c = '\x0b' || c = '\x0c'

/-- Decimal value of a digit string, modelling Python `int`. -/
def digitsToNat (s : Str) : Nat := s.foldl (fun acc c => acc * 10 + (c.toNat - '0'.toNat)) 0

/-- Python `s.rstrip("\n")`: strip trailing newline characters only. -/
def rstripNewlines (s : Str) : Str := (s.reverse.dropWhile (· = '\n')).reverse

/-- `s[len(p):] if s.startswith(p) else s`. -/
def stripPrefixIf (p s : Str) : Str := if List.isPrefixOf p s then s.drop p.length else s

/-- Python `"\n".join(lines)`. -/
def joinNL (ls : List Str) : Str := List.intercalate ['\n'] ls

/--
The common tail of the three file/line regexes: starting at index `p` of `s`,
match `\.go:` then a greedy nonempty digit run then `: `.  Returns the digit-run
length and the end index of the whole match.  (Backtracking the greedy `\d+`
can never help: a shorter run leaves a digit where `:` is required.)
-/
def goTailAt (s : Str) (p : Nat) : Option (Nat × Nat) :=
  if hasPrefixAt s ".go:".data p then
    if leadingRun isDigit (s.drop (p + 4)) > 0 &&
        hasPrefixAt s ": ".data (p + 4 + leadingRun isDigit (s.drop (p + 4))) then
      some (leadingRun isDigit (s.drop (p + 4)),
            p + 4 + leadingRun isDigit (s.drop (p + 4)) + 2)
    else none
  else none

/--
`FILENAME_LINE_FAILURE_RE = ^[ ]{1,}(.+?\.go):(\d+): (.*)` with Python
backtracking semantics: the greedy leading space run tries the longest count
first and shrinks on failure; within each count the lazy `.+?` grows from one
character.  Returns (filename capture, line number, message capture).
`.` does not match a newline; `(.*)` stops at the first newline.
-/
def matchFilenameLine (s : Str) : Option (Str × Nat × Str) :=
  let m := leadingRun (· = ' ') s
  ((List.range m).map (fun i => m - i)).findSome? (fun k =>
    ((List.range s.length).map (· + 1)).findSome? (fun L =>
      if k + L ≤ s.length && (sliceLen s k L).all (· ≠ '\n') then
        (goTailAt s (k + L)).map (fun de =>
          (sliceLen s k (L + 3), digitsToNat (sliceLen s (k + L + 4) de.1),
           (s.drop de.2).takeWhile (· ≠ '\n')))
      else none))

/--
End index of the leading match of
`REPLACE_FILENAME_LINE_RE = ^\s+.*?\.go:\d+: `, with the same backtracking
semantics (greedy `\s+` descending, lazy `.*?` ascending from zero).
-/
def replaceSubmatchEnd (s : Str) : Option Nat :=
  let m := leadingRun isPySpace s
  ((List.range m).map (fun i => m - i)).findSome? (fun k =>
    (List.range (s.length + 1)).findSome? (fun L =>
      if k + L ≤ s.length && (sliceLen s k L).all (· ≠ '\n') then
        (goTailAt s (k + L)).map (fun de => de.2)
      else none))

/-- `REPLACE_FILENAME_LINE_RE.sub("", s)`: `^` anchors the pattern at index 0,
so at most one leading match is removed. -/
def replaceFilenameLineSub (s : Str) : Str :=
  match replaceSubmatchEnd s with
  | some e => s.drop e
  | none => s

/--
`TEST_REPORT_RE = ^[ ]{0,}--- (?:PASS|FAIL|SKIP|BENCH): .+`.  The space run is
forced to its maximum (a shorter run leaves a space where `-` is required);
the four alternatives have distinct first letters, so matching is
deterministic; `.+` demands one non-newline character.
-/
def matchTestReport (s : Str) : Bool :=
  let r := s.dropWhile (· = ' ')
  if List.isPrefixOf "--- ".data r then
    ["PASS".data, "FAIL".data, "SKIP".data, "BENCH".data].any (fun w =>
      List.isPrefixOf w (r.drop 4) && List.isPrefixOf ": ".data (r.drop (4 + w.length)) &&
      (match r.drop (6 + w.length) with
       | c :: _ => c ≠ '\n'
       | [] => false))
  else false

/-- `TEST_UPDATE_RE = ^=== (?:RUN|PAUSE|CONT)\s+`; the three alternatives have
distinct first letters and `\s+` demands one whitespace character after the word. -/
def matchTestUpdate (s : Str) : Bool :=
  if List.isPrefixOf "=== ".data s then
    ["RUN".data, "PAUSE".data, "CONT".data].any (fun w =>
      List.isPrefixOf w (s.drop 4) &&
      (match s.drop (4 + w.length) with
       | c :: _ => isPySpace c
       | [] => false))
  else false

structure LineError where
  filename : Str
  line : Nat
  message : Str
deriving DecidableEq

/-- `parse_line_error`: match a line against `FILENAME_LINE_FAILURE_RE`. -/
def parse_line_error (s : Str) : Option LineError :=
  (matchFilenameLine s).map (fun r => ⟨r.1, r.2.1, r.2.2⟩)

inductive TestAction where
  | run | pause | cont | passA | bench | fail | output | skip
deriving DecidableEq

/-- `TestAction.from_string`: exact match against the eight enum values. -/
def TestAction.from_string (s : Str) : Option TestAction :=
  if s = "run".data then some .run
  else if s = "pause".data then some .pause
  else if s = "cont".data then some .cont
  else if s = "pass".data then some .passA
  else if s = "bench".data then some .bench
  else if s = "fail".data then some .fail
  else if s = "output".data then some .output
  else if s = "skip".data then some .skip
  else none

/-- `TestAction.is_final`: the four terminal actions. -/
def TestAction.is_final : TestAction → Bool
  | .passA | .bench | .fail | .skip => true
  | _ => false

/--
A decoded event in the well-typed shape the aggregation pipeline relies on
(`TestEvent.__init__`): absent JSON fields are `none`.  `elapsed` keeps the
numeric literal; no claim inspects its value.
-/
structure TestEvent where
  action : TestAction
  time : Option Str
  package : Option Str
  test : Option Str
  elapsed : Option Str
  output : Option Str
deriving DecidableEq

/-- `TestEvent.get_output`: the output if truthy, else `""`. -/
def TestEvent.get_output (e : TestEvent) : Str := e.output.getD []

/-- `TestEvent.get_package`: the package if truthy, else `""`. -/
def TestEvent.get_package (e : TestEvent) : Str := e.package.getD []

structure Failure where
  filename : Str
  line : Nat
  failure : Option Str
  output : List Str
  combined_output : Option Str
deriving DecidableEq

/--
The prefix computation of `parse_combined_output`: walk the first raw line;
at the first character that is not a space, the prefix is the characters seen
so far (all spaces) plus four more spaces; if the walk never finds one
(empty or all-space line), the prefix stays `""`.
-/
def computePrefix : Str → Str
  | [] => []
  | c :: cs =>
    if c ≠ ' ' then "    ".data
    else
      match computePrefix cs with
      | [] => []
      | p => ' ' :: p

/--
`parse_combined_output`: strip the computed prefix from every raw line that
starts with it, strip trailing newlines, remove the leading
`REPLACE_FILENAME_LINE_RE` match from the first line, join with newlines.
-/
def parse_combined_output (f : Failure) : Str :=
  match f.output with
  | [] => []
  | first :: _ =>
    let pre := computePrefix first
    let combined := f.output.map (fun s => rstripNewlines (stripPrefixIf pre s))
    joinNL (match combined with
            | [] => []
            | c0 :: rest => replaceFilenameLineSub c0 :: rest)

/-- Error taxonomy of the exceptions the pipeline can raise. -/
inductive Err where
  | emptyEvents
  | multipleTests
  | noFinalAction (test : Option Str)
  | indexError
  | invalidJson (line : Str)
  | illTyped
deriving DecidableEq

structure Test where
  _name : Str
  package : Str
  status : TestAction
  failures : List Failure
deriving DecidableEq

/-- `Test.full_name`. -/
def Test.full_name (t : Test) : Str := t._name

/-- `Test.is_subtest`: `"/" in self._name`; for a one-character needle,
Python substring containment is character membership. -/
def Test.is_subtest (t : Test) : Bool := t._name.contains '/'

/-- `self._name.split("/", 1)[0]`: the characters before the first `/`. -/
def splitHeadSlash : Str → Str
  | [] => []
  | c :: cs => if c = '/' then [] else c :: splitHeadSlash cs

/-- `Test.name`. -/
def Test.name (t : Test) : Str :=
  if t.is_subtest then splitHeadSlash t._name else t._name

/-- `Test._final_action`: the action of the first event whose action is final. -/
def Test._final_action : List TestEvent → Option TestAction
  | [] => none
  | e :: rest => if e.action.is_final then some e.action else Test._final_action rest

/-- Whether an output fragment ends the current failure span
(`FILENAME_LINE_FAILURE_RE`, `TEST_REPORT_RE` or `TEST_UPDATE_RE`). -/
def isBoundaryOut (out : Str) : Bool :=
  (matchFilenameLine out).isSome || matchTestReport out || matchTestUpdate out

/--
The inner for-loop of `Test.from_events`: scan forward over the remaining
events; `output` events with non-boundary text contribute their text, events
with other actions are passed over; at the first boundary `output` event the
loop stops and `events` is truncated to start at the boundary event
(`events = events[i:]`).  Returns the collected texts and `some truncated`
when a boundary was found, `none` when the loop ran off the end (in which
case `events` is left unchanged by the Python code).
-/
def innerScan : List TestEvent → List Str × Option (List TestEvent)
  | [] => ([], none)
  | o :: rest =>
    if o.action = .output then
      let out := o.get_output
      if isBoundaryOut out then ([], some (o :: rest))
      else
        match innerScan rest with
        | (outs, tr) => (out :: outs, tr)
    else innerScan rest

/-- Build one `Failure` of a span and attach its combined output, as
`Test.from_events` does. -/
def mkFailure (le : LineError) (first : Str) (outs : List Str) : Failure :=
  let f : Failure := ⟨le.filename, le.line, some le.message, first :: outs, none⟩
  { f with combined_output := some (parse_combined_output f) }

/--
The outer while-loop of `Test.from_events`, with fuel.  Every iteration pops
the first event; events that are not `output`, have falsy output, or do not
match the failure-location pattern are skipped.  A match opens a span: the
inner scan collects the span's extra lines and, if it found a boundary,
truncates the walk list to resume at the boundary event, otherwise the walk
continues over the same remaining events (which can produce no further span,
exactly as in the source).  One unit of fuel per iteration; the list shrinks
by at least one each iteration, so `events.length` fuel always suffices.
-/
def scanFailuresF : Nat → List TestEvent → List Failure
  | 0, _ => []
  | _ + 1, [] => []
  | fuel + 1, e :: rest =>
    if e.action = .output ∧ ¬(e.output = none ∨ e.output = some []) then
      match parse_line_error e.get_output with
      | none => scanFailuresF fuel rest
      | some le =>
        match innerScan rest with
        | (outs, tr) =>
          mkFailure le e.get_output outs ::
            (match tr with
             | some evs => scanFailuresF fuel evs
             | none => scanFailuresF fuel rest)
    else scanFailuresF fuel rest

def scanFailures (events : List TestEvent) : List Failure :=
  scanFailuresF events.length events

/--
`Test.from_events`: reject an empty group or a group naming several tests;
find the final action (error when none); drop the first event when its output
matches the Update pattern, then unconditionally drop the new first event
(an `IndexError` in the source when none remains); scan the rest for spans.
-/
def Test.from_events (events : List TestEvent) : Except Err Test :=
  match events with
  | [] => .error .emptyEvents
  | e0 :: _ =>
    if events.any (fun e => decide (e.test ≠ e0.test)) then .error .multipleTests
    else
      match Test._final_action events with
      | none => .error (.noFinalAction e0.test)
      | some final_action =>
        match (if matchTestUpdate e0.get_output then events.drop 1 else events) with
        | [] => .error .indexError
        | _ :: events₂ =>
          .ok ⟨e0.test.getD [], e0.get_package, final_action, scanFailures events₂⟩

mutual
/-- A parsed JSON value.  Number literals keep their lexeme: no claim inspects
a numeric value beyond its presence. -/
inductive Json where
  | null
  | bool (b : Bool)
  | num (lit : Str)
  | str (s : Str)
  | arr (elems : JsonList)
  | obj (fields : JsonFields)
inductive JsonList where
  | nil
  | cons (hd : Json) (tl : JsonList)
/-- Object members in source order; duplicate keys stay, lookup takes the
last occurrence, as a Python dict built by insertion does. -/
inductive JsonFields where
  | nil
  | cons (key : Str) (val : Json) (tl : JsonFields)
end

/-- JSON inter-token whitespace. -/
def jsonWS (c : Char) : Bool := c = ' ' || c = '\t' || c = '\n' || c = '\r'

def skipWS (s : Str) : Str := s.dropWhile jsonWS

def hexVal (c : Char) : Option Nat :=
  match c.toNat with
  | n =>
    if 48 ≤ n && n ≤ 57 then some (n - 48)
    else if 97 ≤ n && n ≤ 102 then some (n - 87)
    else if 65 ≤ n && n ≤ 70 then some (n - 55)
    else none

def escChar (c : Char) : Option Char :=
  if c = '"' then some '"'
  else if c = '\\' then some '\\'
  else if c = '/' then some '/'
  else if c = 'b' then some '\x08'
  else if c = 'f' then some '\x0c'
  else if c = 'n' then some '\n'
  else if c = 'r' then some '\r'
  else if c = 't' then some '\t'
  else none

/--
Body of a JSON string, after the opening quote: returns the decoded content
and the input after the closing quote.  Strict mode: raw control characters
are rejected; `\uXXXX` decodes a single code unit (surrogate pairing, which
no input of this program uses, is not modelled).
-/
def parseJStringBody : Str → Option (Str × Str)
  | [] => none
  | '"' :: rest => some ([], rest)
  | '\\' :: 'u' :: a :: b :: c :: d :: rest =>
    match hexVal a, hexVal b, hexVal c, hexVal d with
    | some va, some vb, some vc, some vd =>
      (match parseJStringBody rest with
       | some (cs, r) => some (Char.ofNat (((va * 16 + vb) * 16 + vc) * 16 + vd) :: cs, r)
       | none => none)
    | _, _, _, _ => none
  | '\\' :: e :: rest =>
    match escChar e with
    | some ch =>
      (match parseJStringBody rest with
       | some (cs, r) => some (ch :: cs, r)
       | none => none)
    | none => none
  | c :: rest =>
    if c.toNat < 0x20 then none
    else
      match parseJStringBody rest with
      | some (cs, r) => some (c :: cs, r)
      | none => none

/-- `0 | [1-9][0-9]*` of the JSON number grammar; returns lexeme and rest. -/
def parseJInt : Str → Option (Str × Str)
  | '0' :: rest => some (['0'], rest)
  | c :: rest =>
    if '1' ≤ c && c ≤ '9' then
      let ds := rest.takeWhile isDigit
      some (c :: ds, rest.drop ds.length)
    else none
  | [] => none

/-- Optional `(\.\d+)?` fraction part. -/
def parseJFrac : Str → Option (Str × Str)
  | '.' :: rest =>
    let ds := rest.takeWhile isDigit
    if ds.isEmpty then none else some ('.' :: ds, rest.drop ds.length)
  | s => some ([], s)

/-- Optional `([eE][-+]?\d+)?` exponent part. -/
def parseJExp : Str → Option (Str × Str)
  | e :: rest =>
    if e = 'e' || e = 'E' then
      match rest with
      | sg :: rest2 =>
        if sg = '+' || sg = '-' then
          let ds := rest2.takeWhile isDigit
          if ds.isEmpty then none else some (e :: sg :: ds, rest2.drop ds.length)
        else
          let ds := rest.takeWhile isDigit
          if ds.isEmpty then none else some (e :: ds, rest.drop ds.length)
      | [] => none
    else some ([], e :: rest)
  | [] => some ([], [])

/-- JSON number (or one of the constants `NaN`, `Infinity`, `-Infinity`,
which Python's decoder accepts); returns the lexeme. -/
def parseJNumber (s : Str) : Option (Str × Str) :=
  if List.isPrefixOf "NaN".data s then some ("NaN".data, s.drop 3)
  else if List.isPrefixOf "Infinity".data s then some ("Infinity".data, s.drop 8)
  else if List.isPrefixOf "-Infinity".data s then some ("-Infinity".data, s.drop 9)
  else
    let core := fun (t : Str) (sign : Str) =>
      match parseJInt t with
      | none => none
      | some (ilex, irest) =>
        match parseJFrac irest with
        | none => none
        | some (flex, frest) =>
          match parseJExp frest with
          | none => none
          | some (elex, erest) => some ((sign ++ ilex ++ flex ++ elex : Str), erest)
    match s with
    | '-' :: rest => core rest ['-']
    | _ => core s []

mutual
/--
Recursive-descent JSON value parser (leading whitespace already skipped).
`fuel` bounds the recursion depth; every nested call crosses at least one
input character, so `length + 4` fuel at the top level is always enough.
-/
def parseJVal : Nat → Str → Option (Json × Str)
  | 0, _ => none
  | _ + 1, '"' :: rest =>
    match parseJStringBody rest with
    | some (cs, r) => some (.str cs, r)
    | none => none
  | fuel + 1, '{' :: rest => parseJObj fuel (skipWS rest)
  | fuel + 1, '[' :: rest => parseJArr fuel (skipWS rest)
  | _ + 1, s =>
    if List.isPrefixOf "true".data s then some (.bool true, s.drop 4)
    else if List.isPrefixOf "false".data s then some (.bool false, s.drop 5)
    else if List.isPrefixOf "null".data s then some (.null, s.drop 4)
    else
      match parseJNumber s with
      | some (lex, r) => some (.num lex, r)
      | none => none
termination_by structural fuel _s => fuel

/-- After `{` and whitespace: an empty object or the first member. -/
def parseJObj : Nat → Str → Option (Json × Str)
  | _, '}' :: rest => some (.obj .nil, rest)
  | 0, _ => none
  | fuel + 1, s =>
    match parseJMembers fuel s with
    | some (fs, r) => some (.obj fs, r)
    | none => none
termination_by structural fuel _s => fuel

/-- One `"key" : value` member followed by `, members` or `}`. -/
def parseJMembers : Nat → Str → Option (JsonFields × Str)
  | 0, _ => none
  | fuel + 1, s =>
    match s with
    | '"' :: rest =>
      (match parseJStringBody rest with
       | none => none
       | some (key, afterKey) =>
         match skipWS afterKey with
         | ':' :: r1 =>
           (match parseJVal fuel (skipWS r1) with
            | none => none
            | some (v, afterVal) =>
              match skipWS afterVal with
              | ',' :: r2 =>
                (match parseJMembers fuel (skipWS r2) with
                 | some (ms, r3) => some (.cons key v ms, r3)
                 | none => none)
              | '}' :: r2 => some (.cons key v .nil, r2)
              | _ => none)
         | _ => none)
    | _ => none
termination_by structural fuel _s => fuel

/-- After `[` and whitespace: an empty array or the elements. -/
def parseJArr : Nat → Str → Option (Json × Str)
  | _, ']' :: rest => some (.arr .nil, rest)
  | 0, _ => none
  | fuel + 1, s =>
    match parseJElems fuel s with
    | some (es, r) => some (.arr es, r)
    | none => none
termination_by structural fuel _s => fuel

/-- One element followed by `, elements` or `]`. -/
def parseJElems : Nat → Str → Option (JsonList × Str)
  | 0, _ => none
  | fuel + 1, s =>
    match parseJVal fuel s with
    | none => none
    | some (v, afterVal) =>
      match skipWS afterVal with
      | ',' :: r =>
        (match parseJElems fuel (skipWS r) with
         | some (es, r2) => some (.cons v es, r2)
         | none => none)
      | ']' :: r => some (.cons v .nil, r)
      | _ => none
termination_by structural fuel _s => fuel
end

/-- `json.loads`: a single JSON document, optionally surrounded by
whitespace, with nothing after it. -/
def jsonParse (s : Str) : Option Json :=
  match parseJVal (s.length + 4) (skipWS s) with
  | none => none
  | some (j, rest) =>
    match skipWS rest with
    | [] => some j
    | _ => none

/--
A field value as stored on a hooked event.  Nested arrays and objects are
kept opaque: no consumer modelled here inspects anything beyond the shape
(the aggregator rejects events whose fields are not strings or numbers).
-/
inductive FVal where
  | boolF (b : Bool)
  | numF (lit : Str)
  | strF (s : Str)
  | arrF
  | eventF
  | nullF
deriving DecidableEq

/--
The result of `json.loads(line, object_hook=TestEvent._from_raw_json)`:
every object in the document has been replaced by a `TestEvent`, so the
top level is either such an event or an undecoded plain value.
-/
inductive HVal where
  | null
  | bool (b : Bool)
  | num (lit : Str)
  | str (s : Str)
  | arrV
  | event (action : TestAction) (time pkg test elapsed output : Option FVal)
deriving DecidableEq

/-- Python-dict lookup over object members: the last occurrence of a
duplicated key wins. -/
def fieldsGetLast : JsonFields → Str → Option Json
  | .nil, _ => none
  | .cons k v fs, key =>
    match fieldsGetLast fs key with
    | some r => some r
    | none => if k = key then some v else none

/-- `m.get(key)`: JSON `null` decodes to Python `None`, indistinguishable
from an absent key. -/
def normGet (fs : JsonFields) (key : Str) : Option Json :=
  match fieldsGetLast fs key with
  | some .null => none
  | r => r

/-- Classify a (non-null) member value into the opaque field shape. -/
def jsonToFVal : Json → FVal
  | .null => .nullF
  | .bool b => .boolF b
  | .num l => .numF l
  | .str s => .strF s
  | .arr _ => .arrF
  | .obj _ => .eventF

/--
`TestEvent._from_raw_json` on one object's members: `m["Action"]` must be a
string naming one of the eight actions (a missing key raises `KeyError`, any
other value fails `TestAction.from_string`); the five optional fields are
fetched with `m.get`.
-/
def mkEvent (fs : JsonFields) : Option HVal :=
  match normGet fs "Action".data with
  | some aj =>
    (match aj with
     | .str a =>
       (TestAction.from_string a).map (fun act =>
         .event act
           ((normGet fs "Time".data).map jsonToFVal)
           ((normGet fs "Package".data).map jsonToFVal)
           ((normGet fs "Test".data).map jsonToFVal)
           ((normGet fs "Elapsed".data).map jsonToFVal)
           ((normGet fs "Output".data).map jsonToFVal))
     | _ => none)
  | none => none

mutual
/-- Apply the object hook through a parsed document, innermost objects
first; any object whose members reject it aborts the whole decode. -/
def hookJson : Json → Option HVal
  | .null => some .null
  | .bool b => some (.bool b)
  | .num l => some (.num l)
  | .str s => some (.str s)
  | .arr xs => if hookListOk xs then some .arrV else none
  | .obj fs => if hookFieldsOk fs then mkEvent fs else none
termination_by structural j => j
def hookListOk : JsonList → Bool
  | .nil => true
  | .cons x xs => (hookJson x).isSome && hookListOk xs
termination_by structural l => l
def hookFieldsOk : JsonFields → Bool
  | .nil => true
  | .cons _ v fs => (hookJson v).isSome && hookFieldsOk fs
termination_by structural l => l
end

/-- `TestEvent.from_json`: decode one line; every exception inside the
decode or the hook becomes a `ValueError` carrying the raw line. -/
def TestEvent.from_json (line : Str) : Except Err HVal :=
  match (jsonParse line).bind hookJson with
  | none => .error (.invalidJson line)
  | some h => .ok h

/--
Bridge from a hooked value to the well-typed event the aggregation layer
consumes.  Python is dynamically typed and would carry any field shape along
(to fail, or silently misbehave, downstream); the modelled pipeline draws
the boundary here and rejects non-events and non-string/number fields.
-/
def hvalToEvent : HVal → Except Err TestEvent
  | .event act time pkg test elapsed output => do
    let f : Option FVal → Except Err (Option Str) := fun v =>
      match v with
      | none => .ok none
      | some (.strF s) => .ok (some s)
      | some _ => .error .illTyped
    let fn : Option FVal → Except Err (Option Str) := fun v =>
      match v with
      | none => .ok none
      | some (.numF l) => .ok (some l)
      | some _ => .error .illTyped
    let t ← f time
    let p ← f pkg
    let te ← f test
    let el ← fn elapsed
    let o ← f output
    .ok ⟨act, t, p, te, el, o⟩
  | _ => .error .illTyped

/-- `RawTestOutput.pkgs`: package name, then test name, to the test's events,
both levels in first-insertion order as a Python dict iterates. -/
structure RawTestOutput where
  pkgs : List (Str × List (Str × List TestEvent))
deriving DecidableEq

/-- Append an event to its test's list inside one package's table, creating
the test entry at the end on first sight. -/
def addToTests : List (Str × List TestEvent) → Str → TestEvent → List (Str × List TestEvent)
  | [], t, e => [(t, [e])]
  | (k, evs) :: rest, t, e =>
    if k = t then (k, evs ++ [e]) :: rest else (k, evs) :: addToTests rest t e

/-- The nested-dict insertion of `RawTestOutput.add_event` for an event that
carries both keys. -/
def addToPkgs : List (Str × List (Str × List TestEvent)) → Str → Str → TestEvent →
    List (Str × List (Str × List TestEvent))
  | [], p, t, e => [(p, [(t, [e])])]
  | (k, m) :: rest, p, t, e =>
    if k = p then (k, addToTests m t e) :: rest else (k, m) :: addToPkgs rest p t e

/-- `RawTestOutput.add_event`: events missing `package` or `test` are
dropped. -/
def RawTestOutput.add_event (o : RawTestOutput) (e : TestEvent) : RawTestOutput :=
  match e.package, e.test with
  | some p, some t => ⟨addToPkgs o.pkgs p t e⟩
  | _, _ => o

/-- `RawTestOutput.from_events`: one left-to-right pass over the stream. -/
def RawTestOutput.from_events (events : List TestEvent) : RawTestOutput :=
  events.foldl RawTestOutput.add_event ⟨[]⟩

/-- First-match association-list lookup (keys are unique by construction). -/
def alookup {α : Type} : List (Str × α) → Str → Option α
  | [], _ => none
  | (k, v) :: rest, key => if k = key then some v else alookup rest key

/-- The event group stored under `(package, test)`, if any. -/
def groupLookup (o : RawTestOutput) (p t : Str) : Option (List TestEvent) :=
  (alookup o.pkgs p).bind (fun m => alookup m t)

/-- Python `s.split("\n")`. -/
def splitNL : Str → List Str
  | [] => [[]]
  | c :: cs =>
    if c = '\n' then [] :: splitNL cs
    else
      match splitNL cs with
      | [] => [[c]]
      | l :: rest => (c :: l) :: rest

/--
`Test.from_test_output`: split the blob into non-empty lines, decode each
(failing the whole call on the first undecodable line), group, extract one
`Test` per group, and keep failing tests with failures unless `all_tests`.
-/
def Test.from_test_output (output : Str) (all_tests : Bool) : Except Err (List Test) := do
  let lines := (splitNL output).filter (fun l => !l.isEmpty)
  let hs ← lines.mapM TestEvent.from_json
  let events ← hs.mapM hvalToEvent
  let o := RawTestOutput.from_events events
  let groups := o.pkgs.flatMap (fun pm => pm.2.map (fun tm => tm.2))
  let tests ← groups.mapM Test.from_events
  .ok (tests.filter (fun t => all_tests || (t.status = .fail && !t.failures.isEmpty)))

/-- `subprocess.CompletedProcess` as `AsyncProcess._run` builds it. -/
structure CompletedProc where
  args : List Str
  returncode : Int
  stdout : Option Str
  stderr : Option Str
deriving DecidableEq

/-- The exceptions the worker body can observe. -/
inductive PyExc where
  | timeoutExpired (partialOutput : Option Str)
  | other (msg : Str)
deriving DecidableEq

/-- Abstraction of the operating-system outcome of
`Popen.communicate(timeout=...)` for one run. -/
inductive RunBehavior where
  | completes (stdout stderr : Option Str) (poll : Option Int)
  | timesOut (partialOutput : Option Str)
  | raises (e : PyExc)
deriving DecidableEq

/-- Python `x or 0` on the result of `poll()`: `None` becomes `0`
(and `0` stays `0`). -/
def pyOrZero : Option Int → Int
  | none => 0
  | some n => n

/--
`AsyncProcess._run`: on completion build a `CompletedProcess` from the argv,
the polled exit code and the captured streams; on timeout kill the process
and re-raise `TimeoutExpired`, which carries whatever output was captured;
any other exception also kills the process and propagates.
-/
def AsyncProcess.runBody (args : List Str) (b : RunBehavior) : Except PyExc CompletedProc :=
  match b with
  | .completes out err poll => .ok ⟨args, pyOrZero poll, out, err⟩
  | .timesOut part => .error (.timeoutExpired part)
  | .raises e => .error e

/-- Whether the user callback raises when invoked with the given pair;
`none` models a normal return. -/
structure CallbackBehavior where
  raisesOn : Option CompletedProc → Option PyExc → Option PyExc

/--
`AsyncProcess._communicate`, instrumented with the list of callback
invocations it performs: `callback(self._run(timeout), None)` inside a
`try`, and `callback(None, exc)` in the handler for any exception — whether
it escaped `_run` or the first callback invocation itself.  The second
component is an exception escaping the worker body, if any.
-/
def AsyncProcess.communicateCalls (cb : CallbackBehavior) (args : List Str) (b : RunBehavior) :
    List (Option CompletedProc × Option PyExc) × Option PyExc :=
  match AsyncProcess.runBody args b with
  | .ok p =>
    match cb.raisesOn (some p) none with
    | none => ([(some p, none)], none)
    | some e =>
      match cb.raisesOn none (some e) with
      | none => ([(some p, none), (none, some e)], none)
      | some e2 => ([(some p, none), (none, some e)], some e2)
  | .error e =>
    match cb.raisesOn none (some e) with
    | none => ([(none, some e)], none)
    | some e2 => ([(none, some e)], some e2)

/-- `dict.__setitem__`: replace the value under an existing key in place,
append a new key at the end. -/
def pyDictSet (m : List (Str × Str)) (k v : Str) : List (Str × Str) :=
  if m.any (fun kv => kv.1 = k) then
    m.map (fun kv => if kv.1 = k then (kv.1, v) else kv)
  else m ++ [(k, v)]

/-- `dict.update`: set every overlay pair in order. -/
def pyDictUpdate (base overlay : List (Str × Str)) : List (Str × Str) :=
  overlay.foldl (fun m kv => pyDictSet m kv.1 kv.2) base

/--
The environment construction of `AsyncProcess.__init__`: copy the current
process environment, update it with the caller's overrides when given, then
rebuild the whole mapping with `os.path.expanduser` applied to every value.
`expanduser` is a boundary of the model and passed as a function.
-/
def computeProcEnv (environ : List (Str × Str)) (env : Option (List (Str × Str)))
    (expanduser : Str → Str) : List (Str × Str) :=
  let merged :=
    match env with
    | some e => pyDictUpdate environ e
    | none => environ
  merged.map (fun kv => (kv.1, expanduser kv.2))

/-! Spec-side definitions: phrased from the claims' words, to be compared
with the source-side definitions above. -/

/--
The dedent computation as the specification words it: the prefix is `k`
spaces plus four additional spaces, `k` being the index of the first
non-space character of the first raw line; every raw line starting with the
prefix loses it, others are unchanged; trailing newlines are stripped; the
leading file:line fragment (with its whitespace) is removed from the first
processed line only; the lines are joined by single newlines.
-/
def dedentSpec (f : Failure) : Str :=
  match f.output with
  | [] => []
  | first :: _ =>
    let k := leadingRun (· = ' ') first
    let pre : Str := List.replicate (k + 4) ' '
    let processed := f.output.map (fun s =>
      rstripNewlines (if List.isPrefixOf pre s then s.drop pre.length else s))
    joinNL (match processed with
            | [] => []
            | c0 :: rest => replaceFilenameLineSub c0 :: rest)

/-- The leading-event drops as the claim words them: drop the first event if
its output matches the Update pattern, then unconditionally drop the new
first event. -/
def specFramingDrop : List TestEvent → List TestEvent
  | [] => []
  | e :: rest => if matchTestUpdate e.get_output then rest.drop 1 else rest

/-- Whether one object's members carry a recognized `Action` tag. -/
def goodActionTag (fs : JsonFields) : Bool :=
  match normGet fs "Action".data with
  | some aj =>
    (match aj with
     | .str a => (TestAction.from_string a).isSome
     | _ => false)
  | none => false

mutual
/-- Spec-side predicate: every object anywhere in the document (the
duplicated members included) carries a recognized `Action` tag. -/
def goodJson : Json → Bool
  | .arr xs => goodJsonList xs
  | .obj fs => goodActionTag fs && goodJsonFields fs
  | _ => true
termination_by structural j => j
def goodJsonList : JsonList → Bool
  | .nil => true
  | .cons x xs => goodJson x && goodJsonList xs
termination_by structural l => l
def goodJsonFields : JsonFields → Bool
  | .nil => true
  | .cons _ v fs => goodJson v && goodJsonFields fs
termination_by structural l => l
end

/-! Concrete inputs used by the claim theorems and their witnesses. -/

/-- The six-line `go test -json` stream of the end-to-end scenario. -/
def c1Input : Str :=
  ("\x7b\"Action\":\"run\",\"Test\":\"TestFoo\",\"Package\":\"demo\"\x7d\n" ++
   "\x7b\"Action\":\"output\",\"Test\":\"TestFoo\",\"Package\":\"demo\",\"Output\":\"=== RUN   TestFoo\\n\"\x7d\n" ++
   "\x7b\"Action\":\"output\",\"Test\":\"TestFoo\",\"Package\":\"demo\",\"Output\":\"    demo_test.go:10: expected 1, got 2\\n\"\x7d\n" ++
   "\x7b\"Action\":\"output\",\"Test\":\"TestFoo\",\"Package\":\"demo\",\"Output\":\"        extra detail line\\n\"\x7d\n" ++
   "\x7b\"Action\":\"output\",\"Test\":\"TestFoo\",\"Package\":\"demo\",\"Output\":\"--- FAIL: TestFoo (0.00s)\\n\"\x7d\n" ++
   "\x7b\"Action\":\"fail\",\"Test\":\"TestFoo\",\"Package\":\"demo\",\"Elapsed\":0\x7d").data

/-- An event group whose only failure line embeds a second
`file:line:`-shaped fragment inside its message. -/
def cexEvents : List TestEvent :=
  [⟨.run, none, some "demo".data, some "TestFoo".data, none, none⟩,
   ⟨.output, none, some "demo".data, some "TestFoo".data, none,
    some "    a.go:1: b.go:2: msg\n".data⟩,
   ⟨.fail, none, some "demo".data, some "TestFoo".data, none, none⟩]

/-- A small well-formed event group for witnesses: run banner, one failure
line with one detail line, report banner, terminal fail. -/
def witEvents : List TestEvent :=
  [⟨.run, none, some "p".data, some "TestW".data, none, none⟩,
   ⟨.output, none, some "p".data, some "TestW".data, none, some "=== RUN   TestW\n".data⟩,
   ⟨.output, none, some "p".data, some "TestW".data, none, some "    w_test.go:3: boom\n".data⟩,
   ⟨.output, none, some "p".data, some "TestW".data, none, some "        more\n".data⟩,
   ⟨.output, none, some "p".data, some "TestW".data, none, some "--- FAIL: TestW (0.00s)\n".data⟩,
   ⟨.fail, none, some "p".data, some "TestW".data, none, none⟩]

/-- An event group that never reaches a terminal action. -/
def witNoFinalEvents : List TestEvent :=
  [⟨.run, none, some "p".data, some "TestN".data, none, none⟩,
   ⟨.output, none, some "p".data, some "TestN".data, none, some "x\n".data⟩]

/-- A failure record for exercising the dedent reconstructor. -/
def witFailure : Failure :=
  ⟨"w_test.go".data, 3, some "boom".data,
   ["    w_test.go:3: boom\n".data, "        more\n".data], none⟩

/-- A user-home expansion used by the environment counterexample: it rewrites
the value `~` the way `os.path.expanduser` would on a real home directory. -/
def expandDemo (s : Str) : Str :=
  if s = "~".data then "/home/user".data else s

/-- A callback that never raises. -/
def calmCallback : CallbackBehavior := ⟨fun _ _ => none⟩

/-- The aggregated result the end-to-end scenario must produce. -/
def c1Failure : Failure :=
  ⟨"demo_test.go".data, 10, some "expected 1, got 2".data,
   ["    demo_test.go:10: expected 1, got 2\n".data, "        extra detail line\n".data],
   some "expected 1, got 2\nextra detail line".data⟩

def c1Result : Test :=
  ⟨"TestFoo".data, "demo".data, .fail, [c1Failure]⟩

/-- What the extractor produces on `witEvents`. -/
def witResult : Test :=
  ⟨"TestW".data, "p".data, .fail,
   [⟨"w_test.go".data, 3, some "boom".data,
     ["    w_test.go:3: boom\n".data, "        more\n".data],
     some "boom\nmore".data⟩]⟩

/-- The failure the extractor produces on `cexEvents`: its combined text
starts with the `file:line:`-shaped fragment `b.go:2: `. -/
def cexFailure : Failure :=
  ⟨"a.go".data, 1, some "b.go:2: msg".data,
   ["    a.go:1: b.go:2: msg\n".data], some "b.go:2: msg".data⟩

def cexResult : Test :=
  ⟨"TestFoo".data, "demo".data, .fail, [cexFailure]⟩

instance {ε α : Type} [DecidableEq ε] [DecidableEq α] : DecidableEq (Except ε α) := fun x y =>
  match x, y with
  | .error a, .error b =>
    if h : a = b then .isTrue (by rw [h]) else .isFalse (fun hc => h (by cases hc; rfl))
  | .ok a, .ok b =>
    if h : a = b then .isTrue (by rw [h]) else .isFalse (fun hc => h (by cases hc; rfl))
  | .error _, .ok _ => .isFalse (fun hc => by cases hc)
  | .ok _, .error _ => .isFalse (fun hc => by cases hc)

/-! ## Helper lemmas -/

theorem splitHeadSlash_eq_takeWhile (s : Str) :
    splitHeadSlash s = s.takeWhile (fun c => decide (c ≠ '/')) := by
  induction s with
  | nil => rfl
  | cons c cs ih =>
    by_cases hc : c = '/'
    · subst hc; simp [splitHeadSlash, List.takeWhile_cons]
    · simp [splitHeadSlash, List.takeWhile_cons, hc, ih]

theorem final_action_eq_find (evs : List TestEvent) :
    Test._final_action evs = (evs.find? (fun e => e.action.is_final)).map (fun e => e.action) := by
  induction evs with
  | nil => rfl
  | cons e rest ih =>
    by_cases ha : e.action.is_final
    · simp [Test._final_action, List.find?_cons_of_pos, ha]
    · simp [Test._final_action, List.find?_cons_of_neg, ha, ih]

theorem from_events_failures (evs : List TestEvent) (t : Test)
    (h : Test.from_events evs = .ok t) :
    t.failures = scanFailures (specFramingDrop evs) := by
  cases evs with
  | nil => simp [Test.from_events] at h
  | cons e0 rest =>
    rw [Test.from_events] at h
    split at h
    · simp at h
    · split at h
      · simp at h
      · split at h
        · simp at h
        · rename_i heq
          cases h
          rw [specFramingDrop]
          split at heq
          · rename_i hupd
            simp only [List.drop_succ_cons, List.drop_zero] at heq
            simp only [hupd, if_true]
            rw [heq]
            simp
          · rename_i hupd
            simp only [hupd, if_false]
            cases heq
            rfl

/-! ## Claim theorems -/

/--
C1: on the six-line event stream of the end-to-end scenario, aggregation with
`all_tests = false` returns exactly one `Test` named `TestFoo` in package
`demo` with status `fail`, holding exactly one failure located at
`demo_test.go` line 10 whose combined text is the two-line message
`expected 1, got 2` / `extra detail line`.
-/
theorem c1_end_to_end :
    Test.from_test_output c1Input false = .ok [c1Result] ∧
    c1Result.name = "TestFoo".data ∧
    c1Result.package = "demo".data ∧
    c1Result.status = .fail ∧
    c1Result.failures = [c1Failure] ∧
    c1Failure.filename = "demo_test.go".data ∧
    c1Failure.line = 10 ∧
    c1Failure.combined_output = some ("expected 1, got 2".data ++ '\n' :: "extra detail line".data) :=
  ⟨by decide, by decide, by decide, by decide, by decide, by decide, by decide, by decide⟩

/--
C10: `is_subtest` holds exactly when the stored full name contains `/`;
`name` is the part of the full name before the first `/` when `is_subtest`
holds and the full name unchanged otherwise; `full_name` is always the
complete stored name.
-/
theorem c10_name_subtest (t : Test) :
    (t.is_subtest = true ↔ '/' ∈ t._name) ∧
    t.full_name = t._name ∧
    t.name = (if '/' ∈ t._name then t._name.takeWhile (fun c => decide (c ≠ '/')) else t._name) := by
  refine ⟨?_, rfl, ?_⟩
  · simp [Test.is_subtest]
  · by_cases h : '/' ∈ t._name
    · simp [Test.name, Test.is_subtest, h, splitHeadSlash_eq_takeWhile]
    · simp [Test.name, Test.is_subtest, h]

/--
C3: the extractor drops the group's first event when its output matches the
Update pattern, then unconditionally drops the new first event, and scans
for failure spans only in what remains.
-/
theorem c3_framing_drop (evs : List TestEvent) (t : Test)
    (h : Test.from_events evs = .ok t) :
    t.failures = scanFailures (specFramingDrop evs) :=
  from_events_failures evs t h

theorem c3_witness : witResult.failures = scanFailures (specFramingDrop witEvents) :=
  c3_framing_drop witEvents witResult (by decide)

/--
C4: whenever the extractor returns a result for a group, its status is the
action of the first event in arrival order whose action is terminal; a
non-empty single-test group with no terminal action makes the extractor fail
with the no-terminal-action error rather than return a result.
-/
theorem c4_terminal_status :
    (∀ evs t, Test.from_events evs = .ok t →
      (evs.find? (fun e => e.action.is_final)).map (fun e => e.action) = some t.status) ∧
    (∀ e0 rest, (∀ e ∈ e0 :: rest, e.test = e0.test) →
      (∀ e ∈ e0 :: rest, e.action.is_final = false) →
      Test.from_events (e0 :: rest) = .error (.noFinalAction e0.test)) := by
  constructor
  · intro evs t h
    cases evs with
    | nil => simp [Test.from_events] at h
    | cons e0 rest =>
      rw [Test.from_events] at h
      split at h
      · simp at h
      · split at h
        · simp at h
        · rename_i fa hfa
          split at h
          · simp at h
          · cases h
            rw [← final_action_eq_find, hfa]
  · intro e0 rest h1 h2
    have hany : (e0 :: rest).any (fun e => decide (e.test ≠ e0.test)) = false := by
      rw [List.any_eq_false]
      intro e he
      simp [h1 e he]
    have hfa : Test._final_action (e0 :: rest) = none := by
      rw [final_action_eq_find]
      rw [List.find?_eq_none.mpr]
      · rfl
      · intro e he
        simp [h2 e he]
    rw [Test.from_events]
    rw [if_neg (by rw [hany]; exact Bool.false_ne_true)]
    rw [hfa]

theorem c4_witness :
    (witEvents.find? (fun e => e.action.is_final)).map (fun e => e.action) = some witResult.status ∧
    Test.from_events witNoFinalEvents = .error (.noFinalAction (some "TestN".data)) := by
  constructor
  · exact c4_terminal_status.1 witEvents witResult (by decide)
  · exact c4_terminal_status.2
      ⟨.run, none, some "p".data, some "TestN".data, none, none⟩
      [⟨.output, none, some "p".data, some "TestN".data, none, some "x\n".data⟩]
      (by decide) (by decide)

/-- C5, counterexample: the extractor, fed a failure line whose message body
itself contains a `file:line:` fragment, produces a combined text that starts
with exactly such a fragment (`b.go`, colon, `2`, colon-space). -/
theorem c5_counterexample :
    Test.from_events cexEvents = .ok cexResult ∧
    cexFailure.combined_output =
      some ("b.go".data ++ ":".data ++ "2".data ++ ": ".data ++ "msg".data) :=
  ⟨by decide, by decide⟩

/-- C7, counterexample: the line `5` is valid JSON but not a JSON object, yet
the decoder does not fail: the object hook never fires and the bare number is
returned. -/
theorem c7_counterexample :
    TestEvent.from_json "5".data = .ok (.num "5".data) ∧
    jsonParse "5".data = some (.num "5".data) :=
  ⟨by decide, rfl⟩

/-- C9, counterexample: an inherited (non-overridden) environment entry whose
value carries the user-home shorthand is *not* passed through unmodified —
expansion applies to it as well. -/
theorem c9_counterexample :
    computeProcEnv [("A".data, "~".data)] none expandDemo =
      [("A".data, "/home/user".data)] ∧
    ("/home/user".data : Str) ≠ "~".data :=
  ⟨by decide, by decide⟩

/--
C8: one run of the worker body delivers the callback exactly once on every
path (normal completion, timeout, kill, launch failure — all run outcomes),
provided the callback itself returns normally, and each delivery carries
either a completed process or an exception, never both.
-/
theorem c8_single_delivery (cb : CallbackBehavior) (args : List Str) (b : RunBehavior)
    (hcb : ∀ p e, cb.raisesOn p e = none) :
    (AsyncProcess.communicateCalls cb args b).1.length = 1 ∧
    ∀ call ∈ (AsyncProcess.communicateCalls cb args b).1,
      (∃ p, call = (some p, none)) ∨ (∃ e, call = (none, some e)) := by
  unfold AsyncProcess.communicateCalls
  cases AsyncProcess.runBody args b with
  | ok p =>
    simp only [hcb]
    exact ⟨rfl, by intro call hc; rw [List.mem_singleton] at hc; exact Or.inl ⟨p, hc⟩⟩
  | error e =>
    simp only [hcb]
    exact ⟨rfl, by intro call hc; rw [List.mem_singleton] at hc; exact Or.inr ⟨e, hc⟩⟩

theorem c8_witness :
    (AsyncProcess.communicateCalls calmCallback ["go".data] (.timesOut none)).1.length = 1 ∧
    ∀ call ∈ (AsyncProcess.communicateCalls calmCallback ["go".data] (.timesOut none)).1,
      (∃ p, call = (some p, none)) ∨ (∃ e, call = (none, some e)) :=
  c8_single_delivery calmCallback ["go".data] (.timesOut none) (fun _ _ => rfl)

theorem computePrefix_eq_takeWhile_append (s : Str)
    (h : s.any (fun c => decide (c ≠ ' ')) = true) :
    computePrefix s = s.takeWhile (fun c => decide (c = ' ')) ++ "    ".data := by
  induction s with
  | nil => simp at h
  | cons c cs ih =>
    rw [computePrefix]
    by_cases hc : c = ' '
    · subst hc
      have hcs : cs.any (fun c => decide (c ≠ ' ')) = true := by simpa using h
      rw [if_neg (by simp), ih hcs]
      rw [List.takeWhile_cons, if_pos (by simp)]
      cases hX : cs.takeWhile (fun c => decide (c = ' ')) with
      | nil => simp
      | cons a l => simp
    · rw [if_pos hc]
      rw [List.takeWhile_cons, if_neg (by simpa using hc)]
      simp

theorem takeWhile_space_eq_replicate (s : Str) :
    s.takeWhile (fun c => decide (c = ' ')) =
      List.replicate (leadingRun (fun c => decide (c = ' ')) s) ' ' := by
  rw [List.eq_replicate_iff]
  refine ⟨rfl, ?_⟩
  intro b hb
  have := List.mem_takeWhile_imp hb
  simpa using this

theorem computePrefix_eq_replicate (s : Str)
    (h : s.any (fun c => decide (c ≠ ' ')) = true) :
    computePrefix s = List.replicate (leadingRun (fun c => decide (c = ' ')) s + 4) ' ' := by
  rw [computePrefix_eq_takeWhile_append s h, takeWhile_space_eq_replicate,
      List.replicate_add]
  rfl

/--
C2: for a failure with non-empty raw lines whose first line has a non-space
character at index `k`, the reconstructor strips the `(k + 4)`-space prefix
exactly from the lines that start with it, leaves the others unchanged,
strips trailing newlines, removes the leading whitespace-and-`file.go:line:`
fragment from the first processed line only, and joins with newlines.
-/
theorem c2_dedent (f : Failure) (first : Str) (rest : List Str)
    (hout : f.output = first :: rest)
    (h : first.any (fun c => decide (c ≠ ' ')) = true) :
    parse_combined_output f = dedentSpec f := by
  rw [parse_combined_output, dedentSpec, hout]
  simp only [computePrefix_eq_replicate first h, stripPrefixIf, leadingRun]

theorem c2_witness : parse_combined_output witFailure = dedentSpec witFailure :=
  c2_dedent witFailure "    w_test.go:3: boom\n".data ["        more\n".data]
    (by decide) (by decide)

theorem alookup_addToTests_self (m : List (Str × List TestEvent)) (t : Str) (e : TestEvent) :
    alookup (addToTests m t e) t = some ((alookup m t).getD [] ++ [e]) := by
  induction m with
  | nil => simp [addToTests, alookup]
  | cons kv rest ih =>
    obtain ⟨k, evs⟩ := kv
    by_cases hk : k = t
    · subst hk; simp [addToTests, alookup]
    · simp [addToTests, alookup, hk, ih]

theorem alookup_addToTests_other (m : List (Str × List TestEvent)) (t t' : Str) (e : TestEvent)
    (h : t ≠ t') :
    alookup (addToTests m t e) t' = alookup m t' := by
  induction m with
  | nil => simp [addToTests, alookup, h]
  | cons kv rest ih =>
    obtain ⟨k, evs⟩ := kv
    by_cases hk : k = t
    · subst hk; simp [addToTests, alookup, h, ih]
    · by_cases hk' : k = t'
      · subst hk'; simp [addToTests, alookup, hk]
      · simp [addToTests, alookup, hk, hk', ih]

theorem alookup_addToPkgs_self (pkgs : List (Str × List (Str × List TestEvent)))
    (p t : Str) (e : TestEvent) :
    alookup (addToPkgs pkgs p t e) p = some (addToTests ((alookup pkgs p).getD []) t e) := by
  induction pkgs with
  | nil => simp [addToPkgs, alookup, addToTests]
  | cons kv rest ih =>
    obtain ⟨k, m⟩ := kv
    by_cases hk : k = p
    · subst hk; simp [addToPkgs, alookup]
    · simp [addToPkgs, alookup, hk, ih]

theorem alookup_addToPkgs_other (pkgs : List (Str × List (Str × List TestEvent)))
    (p p' t : Str) (e : TestEvent) (h : p ≠ p') :
    alookup (addToPkgs pkgs p t e) p' = alookup pkgs p' := by
  induction pkgs with
  | nil => simp [addToPkgs, alookup, h]
  | cons kv rest ih =>
    obtain ⟨k, m⟩ := kv
    by_cases hk : k = p
    · subst hk; simp [addToPkgs, alookup, h, ih]
    · by_cases hk' : k = p'
      · subst hk'; simp [addToPkgs, alookup, hk]
      · simp [addToPkgs, alookup, hk, hk', ih]

theorem groupLookup_add_event (o : RawTestOutput) (e : TestEvent) (p t : Str) :
    groupLookup (o.add_event e) p t =
      if e.package = some p ∧ e.test = some t then
        some ((groupLookup o p t).getD [] ++ [e])
      else groupLookup o p t := by
  obtain ⟨pkgs⟩ := o
  cases hp : e.package with
  | none => simp [RawTestOutput.add_event, hp]
  | some p' =>
    cases ht : e.test with
    | none => simp [RawTestOutput.add_event, hp, ht]
    | some t' =>
      rw [RawTestOutput.add_event, hp, ht]
      by_cases hpp : p = p'
      · subst hpp
        by_cases htt : t = t'
        · subst htt
          rw [if_pos ⟨rfl, rfl⟩]
          show (alookup (addToPkgs pkgs p t e) p).bind (fun m => alookup m t) = _
          rw [alookup_addToPkgs_self, Option.some_bind, alookup_addToTests_self]
          cases halp : alookup pkgs p with
          | none => simp [groupLookup, halp, alookup]
          | some m => simp [groupLookup, halp]
        · rw [if_neg (by
            rintro ⟨_, h2⟩
            injection h2 with h2
            exact htt h2.symm)]
          show (alookup (addToPkgs pkgs p t' e) p).bind (fun m => alookup m t) = _
          rw [alookup_addToPkgs_self, Option.some_bind,
              alookup_addToTests_other _ _ _ _ (fun hq => htt hq.symm)]
          cases halp : alookup pkgs p with
          | none => simp [groupLookup, halp, alookup]
          | some m => simp [groupLookup, halp]
      · rw [if_neg (by
          rintro ⟨h1, _⟩
          injection h1 with h1
          exact hpp h1.symm)]
        show (alookup (addToPkgs pkgs p' t' e) p).bind (fun m => alookup m t) = _
        rw [alookup_addToPkgs_other _ _ _ _ _ (fun hq => hpp hq.symm)]
        rfl

theorem groupLookup_foldl (l : List TestEvent) (o : RawTestOutput) (p t : Str) :
    groupLookup (l.foldl RawTestOutput.add_event o) p t =
      match groupLookup o p t with
      | some g => some (g ++ l.filter (fun e => decide (e.package = some p ∧ e.test = some t)))
      | none =>
        if l.filter (fun e => decide (e.package = some p ∧ e.test = some t)) = [] then none
        else some (l.filter (fun e => decide (e.package = some p ∧ e.test = some t))) := by
  induction l generalizing o with
  | nil =>
    simp only [List.foldl_nil, List.filter_nil]
    cases hg : groupLookup o p t with
    | none => simp
    | some g => simp
  | cons e l' ih =>
    rw [List.foldl_cons, ih (o.add_event e), groupLookup_add_event]
    by_cases hc : e.package = some p ∧ e.test = some t
    · rw [if_pos hc, List.filter_cons_of_pos (by simpa using hc)]
      cases hg : groupLookup o p t with
      | none => simp
      | some g => simp
    · rw [if_neg hc, List.filter_cons_of_neg (by simpa using hc)]

/--
C6: grouping drops exactly the events that are missing the package or the
test field, is one left-to-right pass, and the group stored under `(p, t)`
is exactly the subsequence of input events whose package is `p` and test is
`t`, in arrival order (no group is stored when that subsequence is empty).
-/
theorem c6_grouping (evs : List TestEvent) (p t : Str) :
    groupLookup (RawTestOutput.from_events evs) p t =
      (if evs.filter (fun e => decide (e.package = some p ∧ e.test = some t)) = [] then none
       else some (evs.filter (fun e => decide (e.package = some p ∧ e.test = some t)))) := by
  rw [RawTestOutput.from_events, groupLookup_foldl]
  show (match (none : Option (List TestEvent)) with
        | some g => some (g ++ evs.filter (fun e : TestEvent => decide (e.package = some p ∧ e.test = some t)))
        | none =>
          if evs.filter (fun e : TestEvent => decide (e.package = some p ∧ e.test = some t)) = [] then none
          else some (evs.filter (fun e : TestEvent => decide (e.package = some p ∧ e.test = some t)))) = _
  rfl

theorem alookup_map_value {α β : Type} (m : List (Str × α)) (f : α → β) (k : Str) :
    alookup (m.map (fun kv => (kv.1, f kv.2))) k = (alookup m k).map f := by
  induction m with
  | nil => rfl
  | cons kv rest ih =>
    by_cases hk : kv.1 = k
    · simp [alookup, hk]
    · simp [alookup, hk, ih]

theorem alookup_eq_none_of_not_mem {α : Type} (m : List (Str × α)) (k : Str)
    (h : k ∉ m.map Prod.fst) :
    alookup m k = none := by
  induction m with
  | nil => rfl
  | cons kv rest ih =>
    simp only [List.map_cons, List.mem_cons, not_or] at h
    rw [alookup, if_neg (fun hq => h.1 hq.symm)]
    exact ih h.2

theorem alookup_isSome_of_any (m : List (Str × Str)) (k : Str)
    (h : m.any (fun kv => decide (kv.1 = k)) = true) :
    (alookup m k).isSome = true := by
  induction m with
  | nil => simp at h
  | cons kv rest ih =>
    by_cases hk : kv.1 = k
    · simp [alookup, hk]
    · rw [List.any_cons] at h
      have h2 : rest.any (fun kv => decide (kv.1 = k)) = true := by simpa [hk] using h
      simp [alookup, hk, ih h2]

theorem alookup_replace_ne (m : List (Str × Str)) (k0 v0 k : Str) (hne : ¬ k0 = k) :
    alookup (m.map (fun kv => if kv.1 = k0 then (kv.1, v0) else kv)) k = alookup m k := by
  induction m with
  | nil => rfl
  | cons kv rest ih =>
    obtain ⟨k1, v1⟩ := kv
    by_cases hh : k1 = k0
    · have hk : ¬ k1 = k := by simpa [hh] using hne
      rw [List.map_cons]
      rw [show (if (k1, v1).1 = k0 then ((k1, v1).1, v0) else (k1, v1)) = (k1, v0) by
        simp [hh]]
      rw [alookup, if_neg hk, alookup, if_neg hk]
      exact ih
    · rw [List.map_cons]
      rw [show (if (k1, v1).1 = k0 then ((k1, v1).1, v0) else (k1, v1)) = (k1, v1) by
        simp [hh]]
      rw [alookup, alookup]
      by_cases hk : k1 = k
      · rw [if_pos hk, if_pos hk]
      · rw [if_neg hk, if_neg hk]
        exact ih

theorem alookup_replace_self (m : List (Str × Str)) (k0 v0 : Str) :
    alookup (m.map (fun kv => if kv.1 = k0 then (kv.1, v0) else kv)) k0 =
      (alookup m k0).map (fun _ => v0) := by
  induction m with
  | nil => rfl
  | cons kv rest ih =>
    obtain ⟨k1, v1⟩ := kv
    by_cases hh : k1 = k0
    · rw [List.map_cons]
      rw [show (if (k1, v1).1 = k0 then ((k1, v1).1, v0) else (k1, v1)) = (k1, v0) by
        simp [hh]]
      rw [alookup, if_pos hh, alookup, if_pos hh]
      rfl
    · rw [List.map_cons]
      rw [show (if (k1, v1).1 = k0 then ((k1, v1).1, v0) else (k1, v1)) = (k1, v1) by
        simp [hh]]
      rw [alookup, if_neg hh, alookup, if_neg hh]
      exact ih

theorem alookup_append_single (m : List (Str × Str)) (k0 v0 k : Str) :
    alookup (m ++ [(k0, v0)]) k =
      match alookup m k with
      | some v => some v
      | none => if k0 = k then some v0 else none := by
  induction m with
  | nil => rfl
  | cons kv rest ih =>
    obtain ⟨k1, v1⟩ := kv
    rw [List.cons_append, alookup, alookup]
    by_cases hk : k1 = k
    · rw [if_pos hk, if_pos hk]
    · rw [if_neg hk, if_neg hk]
      exact ih

theorem alookup_pyDictSet (m : List (Str × Str)) (k0 v0 k : Str) :
    alookup (pyDictSet m k0 v0) k = if k0 = k then some v0 else alookup m k := by
  rw [pyDictSet]
  by_cases hany : m.any (fun kv => decide (kv.1 = k0)) = true
  · rw [if_pos hany]
    by_cases hk : k0 = k
    · subst hk
      rw [alookup_replace_self, if_pos rfl]
      have hsome := alookup_isSome_of_any m k0 hany
      cases halk : alookup m k0 with
      | none => rw [halk] at hsome; simp at hsome
      | some v => rfl
    · rw [alookup_replace_ne _ _ _ _ hk, if_neg hk]
  · rw [if_neg hany, alookup_append_single]
    by_cases hk : k0 = k
    · subst hk
      have hnone : alookup m k0 = none := by
        apply alookup_eq_none_of_not_mem
        intro hmem
        apply hany
        rw [List.any_eq_true]
        obtain ⟨kv, hkv, hfst⟩ := List.mem_map.mp hmem
        exact ⟨kv, hkv, by simp [hfst]⟩
      rw [hnone, if_pos rfl]
    · cases halk : alookup m k with
      | none => simp [hk]
      | some v => simp [hk, halk]

theorem alookup_pyDictUpdate (base ov : List (Str × Str)) (k : Str)
    (hnd : (ov.map Prod.fst).Nodup) :
    alookup (pyDictUpdate base ov) k =
      match alookup ov k with
      | some v => some v
      | none => alookup base k := by
  induction ov generalizing base with
  | nil => rfl
  | cons kv ov2 ih =>
    obtain ⟨k0, v0⟩ := kv
    simp only [List.map_cons, List.nodup_cons] at hnd
    rw [pyDictUpdate, List.foldl_cons]
    have step : (ov2.foldl (fun m kv => pyDictSet m kv.1 kv.2) (pyDictSet base k0 v0)) =
        pyDictUpdate (pyDictSet base k0 v0) ov2 := rfl
    rw [step, ih _ hnd.2]
    by_cases hk : k0 = k
    · subst hk
      have hnone : alookup ov2 k0 = none := alookup_eq_none_of_not_mem _ _ hnd.1
      rw [hnone, alookup_pyDictSet, if_pos rfl]
      simp [alookup]
    · rw [alookup_pyDictSet, if_neg hk]
      simp [alookup, hk]

/--
C9 amended: the child environment is the current environment overlaid with
the caller's overrides, after which user-home expansion is applied to
*every* value of the merged mapping — the overridden values and the
inherited ones alike (the claim's "inherited entries pass through
unmodified" fails; see the counterexample).
-/
theorem c9_amended :
    (∀ environ expand, computeProcEnv environ none expand =
        environ.map (fun kv => (kv.1, expand kv.2))) ∧
    (∀ environ ov expand k, (ov.map Prod.fst).Nodup →
        alookup (computeProcEnv environ (some ov) expand) k =
          (match alookup ov k with
           | some v => some v
           | none => alookup environ k).map expand) := by
  constructor
  · intro environ expand
    rfl
  · intro environ ov expand k hnd
    show alookup ((pyDictUpdate environ ov).map (fun kv => (kv.1, expand kv.2))) k = _
    rw [alookup_map_value, alookup_pyDictUpdate _ _ _ hnd]

theorem c9_amended_witness :
    alookup (computeProcEnv [("A".data, "~".data)] (some [("B".data, "x".data)]) expandDemo)
        "A".data =
      (match alookup [("B".data, "x".data)] "A".data with
       | some v => some v
       | none => alookup [("A".data, "~".data)] "A".data).map expandDemo :=
  c9_amended.2 [("A".data, "~".data)] [("B".data, "x".data)] expandDemo "A".data (by decide)

theorem mkEvent_isSome_eq (fs : JsonFields) : (mkEvent fs).isSome = goodActionTag fs := by
  rw [mkEvent, goodActionTag]
  cases normGet fs "Action".data with
  | none => rfl
  | some aj =>
    cases aj with
    | str a => cases hfs : TestAction.from_string a <;> simp [hfs]
    | null => rfl
    | bool b => rfl
    | num l => rfl
    | arr xs => rfl
    | obj fs2 => rfl

mutual
theorem hookJson_isSome_eq_good (j : Json) : (hookJson j).isSome = goodJson j := by
  cases j with
  | null => rfl
  | bool b => rfl
  | num l => rfl
  | str s => rfl
  | arr xs =>
    rw [hookJson, goodJson, ← hookListOk_eq_good xs]
    cases hookListOk xs <;> rfl
  | obj fs =>
    rw [hookJson, goodJson, ← hookFieldsOk_eq_good fs, ← mkEvent_isSome_eq fs]
    cases hfo : hookFieldsOk fs
    · rw [if_neg Bool.false_ne_true, Bool.and_false]
      rfl
    · rw [if_pos rfl, Bool.and_true]
termination_by structural j
theorem hookListOk_eq_good (l : JsonList) : hookListOk l = goodJsonList l := by
  cases l with
  | nil => rfl
  | cons x xs =>
    rw [hookListOk, goodJsonList, hookJson_isSome_eq_good x, hookListOk_eq_good xs]
termination_by structural l
theorem hookFieldsOk_eq_good (l : JsonFields) : hookFieldsOk l = goodJsonFields l := by
  cases l with
  | nil => rfl
  | cons k v fs =>
    rw [hookFieldsOk, goodJsonFields, hookJson_isSome_eq_good v, hookFieldsOk_eq_good fs]
termination_by structural l
end

/--
C7 amended: the decoder fails — with a `ValueError` carrying the offending
raw line — exactly when the line is not valid JSON text or some object
anywhere in the parsed document (the hook fires on all of them, innermost
first) lacks an `Action` tag naming one of the eight actions; a line that is
valid JSON but not an object is returned undecoded without failure, and when
the line is a JSON object the successful result is an event whose action is
valid, absent optional fields defaulting rather than failing.
-/
theorem c7_amended :
    (∀ line, TestEvent.from_json line = .error (.invalidJson line) ↔
        (jsonParse line = none ∨ ∃ j, jsonParse line = some j ∧ goodJson j = false)) ∧
    (∀ line fs h, jsonParse line = some (.obj fs) → TestEvent.from_json line = .ok h →
        ∃ act time pkg test elapsed output,
          h = .event act time pkg test elapsed output) := by
  constructor
  · intro line
    rw [TestEvent.from_json]
    cases hp : jsonParse line with
    | none => simp
    | some j =>
      rw [Option.some_bind]
      cases hh : hookJson j with
      | none =>
        have hg : goodJson j = false := by rw [← hookJson_isSome_eq_good, hh]; rfl
        simp [hg]
      | some hv =>
        have hg : goodJson j = true := by rw [← hookJson_isSome_eq_good, hh]; rfl
        constructor
        · intro hcon
          exact Except.noConfusion hcon
        · rintro (hc | ⟨j2, hj2, hg2⟩)
          · exact Option.noConfusion hc
          · injection hj2 with hj2
            subst hj2
            rw [hg] at hg2
            exact Bool.noConfusion hg2
  · intro line fs h hp hok
    rw [TestEvent.from_json, hp, Option.some_bind] at hok
    cases hh : hookJson (.obj fs) with
    | none =>
      rw [hh] at hok
      exact Except.noConfusion hok
    | some hv =>
      rw [hh] at hok
      injection hok with hok
      subst hok
      rw [hookJson] at hh
      by_cases hfo : hookFieldsOk fs = true
      · rw [if_pos hfo, mkEvent] at hh
        cases hna : normGet fs "Action".data with
        | none => rw [hna] at hh; exact Option.noConfusion hh
        | some aj =>
          rw [hna] at hh
          cases aj with
          | str a =>
            have hh2 : (TestAction.from_string a).map (fun act =>
                HVal.event act
                  ((normGet fs "Time".data).map jsonToFVal)
                  ((normGet fs "Package".data).map jsonToFVal)
                  ((normGet fs "Test".data).map jsonToFVal)
                  ((normGet fs "Elapsed".data).map jsonToFVal)
                  ((normGet fs "Output".data).map jsonToFVal)) = some hv := hh
            cases hfs : TestAction.from_string a with
            | none => rw [hfs] at hh2; exact Option.noConfusion hh2
            | some act =>
              rw [hfs] at hh2
              injection hh2 with hh3
              exact ⟨act, _, _, _, _, _, hh3.symm⟩
          | null => exact Option.noConfusion hh
          | bool b => exact Option.noConfusion hh
          | num l => exact Option.noConfusion hh
          | arr xs => exact Option.noConfusion hh
          | obj fs2 => exact Option.noConfusion hh
      · rw [if_neg hfo] at hh
        exact Option.noConfusion hh

theorem c7_amended_witness :
    TestEvent.from_json "\x7b\x7d".data = .error (.invalidJson "\x7b\x7d".data) :=
  (c7_amended.1 "\x7b\x7d".data).mpr (Or.inr ⟨Json.obj .nil, rfl, rfl⟩)

theorem findSome?_isSome_iff {α β : Type} (l : List α) (f : α → Option β) :
    (l.findSome? f).isSome = true ↔ ∃ x ∈ l, (f x).isSome = true := by
  induction l with
  | nil => simp [List.findSome?]
  | cons a l ih =>
    rw [List.findSome?_cons]
    cases hfa : f a with
    | some b =>
      simp only [Option.isSome_some, true_iff]
      exact ⟨a, List.mem_cons_self a l, by rw [hfa]; rfl⟩
    | none =>
      rw [ih]
      constructor
      · rintro ⟨x, hx, hfx⟩
        exact ⟨x, List.mem_cons_of_mem a hx, hfx⟩
      · rintro ⟨x, hx, hfx⟩
        rcases List.mem_cons.mp hx with hq | hq
        · subst hq
          rw [hfa] at hfx
          exact absurd hfx (by simp)
        · exact ⟨x, hq, hfx⟩

theorem takeWhile_eq_take_run (p : Char → Bool) (l : Str) :
    l.takeWhile p = l.take (leadingRun p l) :=
  List.prefix_iff_eq_take.mp (List.takeWhile_prefix p)

theorem le_leadingRun (p : Char → Bool) (l : Str) (k : Nat) (hk : k ≤ l.length)
    (h : ∀ c ∈ l.take k, p c = true) : k ≤ leadingRun p l := by
  induction l generalizing k with
  | nil =>
    simp only [List.length_nil, Nat.le_zero] at hk
    subst hk
    exact Nat.zero_le _
  | cons c rest ih =>
    cases k with
    | zero => exact Nat.zero_le _
    | succ k2 =>
      have hc : p c = true := h c (by simp [List.take_succ_cons])
      have hrest := ih k2 (by simpa using hk)
        (fun x hx => h x (by simp [List.take_succ_cons, hx]))
      rw [leadingRun, List.takeWhile_cons, if_pos hc, List.length_cons]
      rw [leadingRun] at hrest
      omega

theorem leadingRun_eq_of (p : Char → Bool) (l : Str) (d : Nat)
    (h1 : ∀ c ∈ l.take d, p c = true)
    (h2 : ∃ c, l[d]? = some c ∧ p c = false) :
    leadingRun p l = d := by
  induction l generalizing d with
  | nil =>
    obtain ⟨c, hc, _⟩ := h2
    simp at hc
  | cons a rest ih =>
    cases d with
    | zero =>
      obtain ⟨c, hc, hpc⟩ := h2
      simp only [List.getElem?_cons_zero, Option.some.injEq] at hc
      subst hc
      simp [leadingRun, List.takeWhile_cons, hpc]
    | succ d2 =>
      have ha : p a = true := h1 a (by simp [List.take_succ_cons])
      obtain ⟨c, hc, hpc⟩ := h2
      simp only [List.getElem?_cons_succ] at hc
      have hrest := ih d2 (fun x hx => h1 x (by simp [List.take_succ_cons, hx])) ⟨c, hc, hpc⟩
      rw [leadingRun, List.takeWhile_cons, if_pos ha, List.length_cons]
      rw [leadingRun] at hrest
      omega

theorem rstripNewlines_prefix (s : Str) : rstripNewlines s <+: s := by
  have h := List.reverse_prefix.mpr
    (@List.dropWhile_suffix Char s.reverse (fun c => decide (c = '\n')))
  rwa [List.reverse_reverse] at h

theorem take_eq_of_rstrip (s : Str) (e : Nat) (he : e ≤ s.length)
    (h : ∀ c ∈ s.take e, ¬ c = '\n') :
    e ≤ (rstripNewlines s).length ∧ (rstripNewlines s).take e = s.take e := by
  have hdecomp : s = rstripNewlines s ++ (s.reverse.takeWhile (fun c => decide (c = '\n'))).reverse := by
    rw [rstripNewlines]
    rw [← List.reverse_append, List.takeWhile_append_dropWhile, List.reverse_reverse]
  have hlen : e ≤ (rstripNewlines s).length := by
    by_contra hcon
    push_neg at hcon
    set R := rstripNewlines s with hR
    set T := (s.reverse.takeWhile (fun c => decide (c = '\n'))).reverse with hT
    have htake : s.take e = R ++ T.take (e - R.length) := by
      rw [hdecomp]
      rw [List.take_append_eq_append_take]
      rw [List.take_of_length_le (by omega)]
    have hTne : T.take (e - R.length) ≠ [] := by
      have hTlen : R.length + T.length = s.length := by
        have := congrArg List.length hdecomp
        simpa using this.symm
      rw [Ne, List.take_eq_nil_iff]
      push_neg
      constructor
      · omega
      · intro hTnil
        rw [hTnil] at hTlen
        simp at hTlen
        omega
    obtain ⟨c, hcmem⟩ := List.exists_mem_of_ne_nil _ hTne
    have hcT : c ∈ T := List.mem_of_mem_take hcmem
    have hcnl : c = '\n' := by
      have : c ∈ s.reverse.takeWhile (fun c => decide (c = '\n')) := by
        rw [hT, List.mem_reverse] at hcT
        exact hcT
      have := List.mem_takeWhile_imp this
      simpa using this
    have hcs : c ∈ s.take e := by
      rw [htake]
      exact List.mem_append_right _ hcmem
    exact h c hcs hcnl
  refine ⟨hlen, ?_⟩
  conv_rhs => rw [hdecomp]
  rw [List.take_append_eq_append_take]
  have : e - (rstripNewlines s).length = 0 := by omega
  rw [this]
  simp

theorem sliceLen_eq_take (X : Str) (e i n : Nat) (hin : i + n ≤ e) :
    sliceLen X i n = ((X.take e).drop i).take n := by
  rw [sliceLen, List.drop_take, List.take_take]
  congr 1
  omega

theorem sliceLen_congr (X Y : Str) (e i n : Nat) (hagree : X.take e = Y.take e)
    (hin : i + n ≤ e) : sliceLen X i n = sliceLen Y i n := by
  rw [sliceLen_eq_take X e i n hin, sliceLen_eq_take Y e i n hin, hagree]

theorem hasPrefixAt_iff (X pre : Str) (i : Nat) :
    hasPrefixAt X pre i = true ↔ pre = sliceLen X i pre.length := by
  rw [hasPrefixAt, List.isPrefixOf_iff_prefix, List.prefix_iff_eq_take]
  rfl

theorem hasPrefixAt_congr (X Y pre : Str) (e i : Nat) (hagree : X.take e = Y.take e)
    (hin : i + pre.length ≤ e) : hasPrefixAt X pre i = hasPrefixAt Y pre i := by
  by_cases hx : hasPrefixAt X pre i = true
  · rw [hx]
    symm
    rw [hasPrefixAt_iff, ← sliceLen_congr X Y e i pre.length hagree hin]
    exact (hasPrefixAt_iff X pre i).mp hx
  · rw [Bool.not_eq_true] at hx
    rw [hx]
    symm
    rw [Bool.eq_false_iff, Ne, hasPrefixAt_iff]
    intro hq
    rw [← sliceLen_congr X Y e i pre.length hagree hin] at hq
    exact absurd ((hasPrefixAt_iff X pre i).mpr hq) (by rw [hx]; exact Bool.false_ne_true)

theorem getElem?_congr_take (X Y : Str) (e j : Nat) (hagree : X.take e = Y.take e)
    (hj : j < e) : X[j]? = Y[j]? := by
  have h1 : (X.take e)[j]? = X[j]? := by rw [List.getElem?_take, if_pos hj]
  have h2 : (Y.take e)[j]? = Y[j]? := by rw [List.getElem?_take, if_pos hj]
  rw [← h1, ← h2, hagree]

theorem digit_not_newline (c : Char) (h : isDigit c = true) : ¬ c = '\n' := by
  intro hq
  subst hq
  exact absurd h (by decide)

theorem space_not_newline (c : Char) (h : c = ' ') : ¬ c = '\n' := by
  intro hq
  rw [hq] at h
  exact absurd h (by decide)

theorem mem_take_of_le_run (p : Char → Bool) (s : Str) (k : Nat)
    (hk : k ≤ leadingRun p s) : ∀ c ∈ s.take k, p c = true := by
  intro c hc
  have heq : s.take k = (s.takeWhile p).take k := by
    rw [takeWhile_eq_take_run, List.take_take]
    congr 1
    omega
  rw [heq] at hc
  exact List.mem_takeWhile_imp (List.take_subset _ _ hc)

theorem matchRegion_no_newline (s : Str) (k L ds : Nat)
    (hkm : k ≤ leadingRun (fun c => decide (c = ' ')) s)
    (hLn : (sliceLen s k L).all (fun c => decide (c ≠ '\n')) = true)
    (hgo : hasPrefixAt s ".go:".data (k + L) = true)
    (hds : ds = leadingRun isDigit (s.drop (k + L + 4)))
    (hcol : hasPrefixAt s ": ".data (k + L + 4 + ds) = true) :
    ∀ c ∈ s.take (k + L + 4 + ds + 2), ¬ c = '\n' := by
  intro c hc
  have hsplit : s.take (k + L + 4 + ds + 2) =
      s.take k ++ sliceLen s k L ++ sliceLen s (k + L) 4 ++
      sliceLen s (k + L + 4) ds ++ sliceLen s (k + L + 4 + ds) 2 := by
    rw [show k + L + 4 + ds + 2 = (k + L + 4 + ds) + 2 from rfl, List.take_add]
    rw [show k + L + 4 + ds = (k + L + 4) + ds from rfl, List.take_add]
    rw [show k + L + 4 = (k + L) + 4 from rfl, List.take_add]
    rw [show k + L = k + L from rfl, List.take_add]
    rfl
  rw [hsplit] at hc
  rcases List.mem_append.mp hc with hc4 | hcE
  rcases List.mem_append.mp hc4 with hc3 | hcD
  rcases List.mem_append.mp hc3 with hc2 | hcG
  rcases List.mem_append.mp hc2 with hcS | hcL
  · -- leading spaces
    have := mem_take_of_le_run _ s k hkm c hcS
    exact space_not_newline c (by simpa using this)
  · -- the lazy region, checked newline-free
    have := List.all_eq_true.mp hLn c hcL
    simpa using this
  · -- the ".go:" literal
    have heq := (hasPrefixAt_iff s ".go:".data (k + L)).mp hgo
    rw [show (".go:".data : Str).length = 4 from rfl,
        show (".go:".data : Str) = ['.', 'g', 'o', ':'] from rfl] at heq
    rw [← heq] at hcG
    simp only [List.mem_cons, List.not_mem_nil, or_false] at hcG
    rcases hcG with rfl | rfl | rfl | rfl <;> decide
  · -- the digit run
    have heq : sliceLen s (k + L + 4) ds = (s.drop (k + L + 4)).takeWhile isDigit := by
      rw [sliceLen, takeWhile_eq_take_run, hds]
    rw [heq] at hcD
    exact digit_not_newline c (List.mem_takeWhile_imp hcD)
  · -- the ": " literal
    have heq := (hasPrefixAt_iff s ": ".data (k + L + 4 + ds)).mp hcol
    rw [show (": ".data : Str).length = 2 from rfl,
        show (": ".data : Str) = [':', ' '] from rfl] at heq
    rw [← heq] at hcE
    simp only [List.mem_cons, List.not_mem_nil, or_false] at hcE
    rcases hcE with rfl | rfl <;> decide

theorem goTailAt_isSome_elim (s : Str) (p : Nat) (h : (goTailAt s p).isSome = true) :
    hasPrefixAt s ".go:".data p = true ∧
    0 < leadingRun isDigit (s.drop (p + 4)) ∧
    hasPrefixAt s ": ".data (p + 4 + leadingRun isDigit (s.drop (p + 4))) = true := by
  rw [goTailAt] at h
  by_cases hgo : hasPrefixAt s ".go:".data p = true
  · rw [if_pos hgo] at h
    by_cases hc : (leadingRun isDigit (s.drop (p + 4)) > 0 &&
        hasPrefixAt s ": ".data (p + 4 + leadingRun isDigit (s.drop (p + 4)))) = true
    · obtain ⟨h1, h2⟩ := Bool.and_eq_true_iff.mp hc
      exact ⟨hgo, by simpa using h1, h2⟩
    · rw [if_neg hc] at h
      exact absurd h (by simp)
  · rw [if_neg hgo] at h
    exact absurd h (by simp)

theorem replaceSubmatchEnd_isSome_of_match (s : Str)
    (h : (matchFilenameLine s).isSome = true) :
    (replaceSubmatchEnd (rstripNewlines s)).isSome = true := by
  simp only [matchFilenameLine] at h
  rw [findSome?_isSome_iff] at h
  obtain ⟨k, hkmem, hk⟩ := h
  rw [findSome?_isSome_iff] at hk
  obtain ⟨L, hLmem, hL⟩ := hk
  obtain ⟨ik, hikr, hikk⟩ := List.mem_map.mp hkmem
  rw [List.mem_range] at hikr
  have hk1 : 1 ≤ k := by omega
  have hkm : k ≤ leadingRun (fun c => decide (c = ' ')) s := by omega
  by_cases hcond : (decide (k + L ≤ s.length) &&
      (sliceLen s k L).all (fun c => decide (c ≠ '\n'))) = true
  swap
  · rw [if_neg hcond] at hL
    exact absurd hL (by simp)
  rw [if_pos hcond] at hL
  obtain ⟨hkL, hslice⟩ := Bool.and_eq_true_iff.mp hcond
  have hkLs : k + L ≤ s.length := of_decide_eq_true hkL
  have hgts : (goTailAt s (k + L)).isSome = true := by
    cases hgt : goTailAt s (k + L) with
    | none => rw [hgt] at hL; exact absurd hL (by simp)
    | some de => rfl
  obtain ⟨hgo, hdpos, hcol⟩ := goTailAt_isSome_elim s (k + L) hgts
  set ds := leadingRun isDigit (s.drop (k + L + 4)) with hds
  set e := k + L + 4 + ds + 2 with he
  -- the whole matched region lies before any trailing newline
  have hnonl : ∀ c ∈ s.take e, ¬ c = '\n' :=
    matchRegion_no_newline s k L ds hkm hslice hgo hds hcol
  have hes : e ≤ s.length := by
    have hpre := (hasPrefixAt_iff s ": ".data (k + L + 4 + ds)).mp hcol
    rw [show (": ".data : Str).length = 2 from rfl] at hpre
    have hlen : (sliceLen s (k + L + 4 + ds) 2).length = 2 := by
      rw [← hpre]
      rfl
    rw [sliceLen] at hlen
    have h1 : ((s.drop (k + L + 4 + ds)).take 2).length ≤ s.length - (k + L + 4 + ds) := by
      rw [List.length_take, List.length_drop]
      omega
    omega
  obtain ⟨her, hagree⟩ := take_eq_of_rstrip s e hes hnonl
  set r := rstripNewlines s with hr
  -- transfer every component of the match to the stripped string
  have hsl : sliceLen r k L = sliceLen s k L :=
    sliceLen_congr r s e k L hagree (by omega)
  have hgor : hasPrefixAt r ".go:".data (k + L) = true := by
    rw [hasPrefixAt_congr r s ".go:".data e (k + L) hagree
      (by rw [show (".go:".data : Str).length = 4 from rfl]; omega)]
    exact hgo
  have hdigits : ∀ c ∈ (r.drop (k + L + 4)).take ds, isDigit c = true := by
    intro c hc
    have h1 : (r.drop (k + L + 4)).take ds = sliceLen r (k + L + 4) ds := rfl
    have h2 : sliceLen r (k + L + 4) ds = sliceLen s (k + L + 4) ds :=
      sliceLen_congr r s e (k + L + 4) ds hagree (by omega)
    have h3 : sliceLen s (k + L + 4) ds = (s.drop (k + L + 4)).takeWhile isDigit := by
      rw [sliceLen, takeWhile_eq_take_run]
    rw [h1, h2, h3] at hc
    exact List.mem_takeWhile_imp hc
  have hcolon : s[k + L + 4 + ds]? = some ':' := by
    have hpre := (hasPrefixAt_iff s ": ".data (k + L + 4 + ds)).mp hcol
    rw [show (": ".data : Str).length = 2 from rfl,
        show (": ".data : Str) = [':', ' '] from rfl] at hpre
    have h0 : ([':', ' '] : Str)[0]? = some ':' := rfl
    rw [hpre] at h0
    rw [sliceLen] at h0
    rw [List.getElem?_take] at h0
    rw [if_pos (by omega : (0:Nat) < 2)] at h0
    rw [List.getElem?_drop] at h0
    simpa using h0
  have hdr : leadingRun isDigit (r.drop (k + L + 4)) = ds := by
    apply leadingRun_eq_of isDigit (r.drop (k + L + 4)) ds hdigits
    refine ⟨':', ?_, by decide⟩
    rw [List.getElem?_drop]
    rw [getElem?_congr_take r s e (k + L + 4 + ds) hagree (by omega)]
    exact hcolon
  have hcolr : hasPrefixAt r ": ".data (k + L + 4 + ds) = true := by
    rw [hasPrefixAt_congr r s ": ".data e (k + L + 4 + ds) hagree
      (by rw [show (": ".data : Str).length = 2 from rfl])]
    exact hcol
  -- assemble the candidate for the replacement pattern
  simp only [replaceSubmatchEnd]
  rw [findSome?_isSome_iff]
  have hkmr : k ≤ leadingRun isPySpace r := by
    apply le_leadingRun isPySpace r k (by omega)
    intro c hc
    have h1 : r.take k = s.take k := by
      have h2 : (r.take e).take k = r.take k := by
        rw [List.take_take]
        congr 1
        omega
      have h3 : (s.take e).take k = s.take k := by
        rw [List.take_take]
        congr 1
        omega
      rw [← h2, ← h3, hagree]
    rw [h1] at hc
    have := mem_take_of_le_run _ s k hkm c hc
    have hsp : c = ' ' := by simpa using this
    rw [hsp]
    rfl
  refine ⟨k, List.mem_map.mpr ⟨leadingRun isPySpace r - k,
    List.mem_range.mpr (by omega), by omega⟩, ?_⟩
  rw [findSome?_isSome_iff]
  refine ⟨L, List.mem_range.mpr (by omega), ?_⟩
  rw [if_pos]
  · rw [goTailAt, if_pos hgor, hdr, if_pos]
    · rfl
    · rw [Bool.and_eq_true_iff]
      exact ⟨by simpa using hdpos, hcolr⟩
  · rw [Bool.and_eq_true_iff]
    refine ⟨decide_eq_true (by omega), ?_⟩
    rw [hsl]
    exact hslice

theorem parse_combined_output_ignores_combined (fn : Str) (ln : Nat) (fl : Option Str)
    (out : List Str) (c1 c2 : Option Str) :
    parse_combined_output ⟨fn, ln, fl, out, c1⟩ = parse_combined_output ⟨fn, ln, fl, out, c2⟩ := rfl

theorem scanFailuresF_first_line (fuel : Nat) :
    ∀ l f, f ∈ scanFailuresF fuel l →
      ∃ raw0 outs, f.output = raw0 :: outs ∧ (parse_line_error raw0).isSome = true ∧
        f.combined_output = some (parse_combined_output f) := by
  induction fuel with
  | zero =>
    intro l f hf
    simp [scanFailuresF] at hf
  | succ fuel ih =>
    intro l f hf
    cases l with
    | nil => simp [scanFailuresF] at hf
    | cons e rest =>
      rw [scanFailuresF] at hf
      split at hf
      · rename_i hguard
        cases hle : parse_line_error e.get_output with
        | none =>
          rw [hle] at hf
          exact ih rest f hf
        | some le =>
          rw [hle] at hf
          rcases hris : innerScan rest with ⟨outs, tr⟩
          rw [hris] at hf
          rcases List.mem_cons.mp hf with hq | hq
          · subst hq
            refine ⟨e.get_output, outs, rfl, by rw [hle]; rfl, ?_⟩
            show some (parse_combined_output ⟨le.filename, le.line, some le.message,
              e.get_output :: outs, none⟩) = _
            exact congrArg some (parse_combined_output_ignores_combined le.filename le.line
              (some le.message) (e.get_output :: outs) none _)
          · cases tr with
            | some evs => exact ih evs f hq
            | none => exact ih rest f hq
      · exact ih rest f hf

/--
C5 amended: every failure the extractor produces starts from a raw line that
matches the failure-location pattern, and the reconstructor removes one
leading whitespace-and-`file.go:line:` match from it (the replacement
pattern is guaranteed to match the newline-stripped first raw line).  The
original "never starts with a `file:line:` fragment" is false — only one
leading fragment is removed, so a message that itself carries such a
fragment surfaces it at the front of the combined text (see the
counterexample).
-/
theorem c5_amended (evs : List TestEvent) (t : Test) (h : Test.from_events evs = .ok t) :
    ∀ f ∈ t.failures,
      ∃ raw0 outs, f.output = raw0 :: outs ∧
        (parse_line_error raw0).isSome = true ∧
        (replaceSubmatchEnd (rstripNewlines raw0)).isSome = true ∧
        f.combined_output = some (parse_combined_output f) := by
  intro f hf
  rw [from_events_failures evs t h, scanFailures] at hf
  obtain ⟨raw0, outs, ho, hp, hc⟩ := scanFailuresF_first_line _ _ f hf
  refine ⟨raw0, outs, ho, hp, ?_, hc⟩
  apply replaceSubmatchEnd_isSome_of_match
  rw [parse_line_error] at hp
  simpa using hp

theorem c5_amended_witness :
    ∃ raw0 outs, cexFailure.output = raw0 :: outs ∧
      (parse_line_error raw0).isSome = true ∧
      (replaceSubmatchEnd (rstripNewlines raw0)).isSome = true ∧
      cexFailure.combined_output = some (parse_combined_output cexFailure) :=
  c5_amended cexEvents cexResult (by decide) cexFailure (by decide)
